import Mathlib

/-!
Shallow embedding of the student-record application:
`utils.js` (date/name validation, sanitization, French date formatting) and the
in-memory CRUD route handlers of `server.js`.

Modelling conventions:
* JS strings are Lean `String`s, manipulated through their `List Char` data.
* JS whitespace (`\s`, `trim`) is modelled by `Char.isWhitespace`.
* JS `Date` values are modelled as milliseconds since the Unix epoch (`Int`),
  with the timezone fixed to UTC (the source does not pin a timezone).
* The system clock and the id generator are oracles: operations take the
  current civil time (`Clock`) and freshly generated ids/timestamps as inputs.
-/

/-- JS whitespace class (`\s`, `String.prototype.trim`). -/
def isWs (c : Char) : Bool := c.isWhitespace

/-- Decimal digit character (`\d`): code point between '0' (48) and '9' (57). -/
def isDigitChar (c : Char) : Bool := decide (48 ≤ c.toNat) && decide (c.toNat ≤ 57)

/-- Numeric value of a decimal digit character. -/
def digitVal (c : Char) : Nat := c.toNat - 48

/-- Decimal digit character for a value `0..9`. -/
def digitChar (n : Nat) : Char := Char.ofNat (48 + n)

/-- The apostrophe character (written numerically). -/
def aposChar : Char := Char.ofNat 39

/-- The characters removed by `sanitizeName` and rejected by `isValidName`
(the regex class of `<`, `>`, `"`, the apostrophe, `&` in `utils.js`). -/
def isDangerous (c : Char) : Bool :=
  c == '<' || c == '>' || c == '"' || c == aposChar || c == '&'

/-- JS `String.prototype.trim` on the character list: drop whitespace from
both ends. -/
def trimList (l : List Char) : List Char :=
  ((l.dropWhile isWs).reverse.dropWhile isWs).reverse

/-- JS `String.prototype.replace(/\s+/g, ' ')`: every maximal whitespace run
becomes a single space.  The flag records whether we are inside a run whose
replacement space was already emitted. -/
def collapseRun : List Char → Bool → List Char
  | [], _ => []
  | c :: rest, inRun =>
    if isWs c then
      if inRun then collapseRun rest true
      else ' ' :: collapseRun rest true
    else c :: collapseRun rest false

/-- JS `String.prototype.toLowerCase` (ASCII letters suffice for this app). -/
def lowerStr (s : String) : String := ⟨s.data.map Char.toLower⟩

/-- Fuel-driven decimal rendering (structural recursion so that the kernel
can evaluate it). -/
def natToDigitsAux : Nat → Nat → List Char
  | 0, _ => []
  | fuel + 1, n =>
    if n < 10 then [digitChar n]
    else natToDigitsAux fuel (n / 10) ++ [digitChar (n % 10)]

/-- JS `Number.prototype.toString` for naturals: decimal digits, no padding. -/
def natToDigits (n : Nat) : List Char := natToDigitsAux (n + 1) n

/-- JS `String.prototype.padStart(2, '0')` applied to a rendered number. -/
def pad2 (n : Nat) : List Char :=
  if n < 10 then '0' :: natToDigits n else natToDigits n

/-- `utils.js` `sanitizeName` on the character list: trim, collapse whitespace
runs, strip dangerous characters, truncate to 50 (`substring(0, 50)`). -/
def sanitizeNameL (l : List Char) : List Char :=
  if l = [] then []
  else ((collapseRun (trimList l) false).filter (fun c => !isDangerous c)).take 50

/-- `utils.js` `sanitizeName` (string-typed inputs; the `typeof` guard of the
source is outside a typed embedding). -/
def sanitizeName (s : String) : String := ⟨sanitizeNameL s.data⟩

/-- `utils.js` `isValidName` on the character list: trimmed length in `[2, 50]`,
no dangerous character in the trimmed name. -/
def isValidNameL (l : List Char) : Bool :=
  if l = [] then false
  else if (trimList l).length < 2 || 50 < (trimList l).length then false
  else if (trimList l).length = 0 then false
  else if (trimList l).any isDangerous then false
  else true

/-- `utils.js` `isValidName`. -/
def isValidName (s : String) : Bool := isValidNameL s.data

/-- `utils.js` `isValidStudentId`: a non-empty string. -/
def isValidStudentId (id : String) : Bool := id ≠ ""

/-- Maximal non-whitespace runs of a character list, in order (the "words" the
spec's sanitization sentence speaks about). -/
def wordsOf (l : List Char) : List (List Char) :=
  match l with
  | [] => []
  | c :: rest =>
    if isWs c then wordsOf rest
    else (c :: rest.takeWhile (fun x => !isWs x)) ::
      wordsOf (rest.dropWhile (fun x => !isWs x))
termination_by l.length
decreasing_by
  · simp
  · have := (List.dropWhile_sublist (l := rest) (fun x => !isWs x)).length_le
    simp
    omega

/-- Words joined by single spaces. -/
def joinWords : List (List Char) → List Char
  | [] => []
  | w :: ws =>
    match ws with
    | [] => w
    | _ :: _ => w ++ ' ' :: joinWords ws

/-- Modelled from the spec's words for `sanitizeName`: the input trimmed, its
internal whitespace runs collapsed to single spaces (words joined by single
spaces), the characters `<` `>` `"` apostrophe `&` removed, truncated to 50
characters; empty string for empty input. -/
def specSanitizeName (s : String) : String :=
  if s = "" then ""
  else ⟨((joinWords (wordsOf (trimList s.data))).filter
      (fun c => !isDangerous c)).take 50⟩

/-- Gregorian leap year (`Date` semantics). -/
def isLeapYear (y : Nat) : Bool :=
  (y % 4 == 0 && y % 100 != 0) || y % 400 == 0

/-- Days in a month of the proleptic Gregorian calendar. -/
def daysInMonth (y m : Nat) : Nat :=
  if m = 2 then (if isLeapYear y then 29 else 28)
  else if m = 4 || m = 6 || m = 9 || m = 11 then 30
  else 31

/-- A real calendar date (what a conforming ISO `YYYY-MM-DD` string must
denote for JS `new Date` not to yield `Invalid Date`). -/
def RealDate (y m d : Nat) : Prop :=
  1 ≤ m ∧ m ≤ 12 ∧ 1 ≤ d ∧ d ≤ daysInMonth y m

instance (y m d : Nat) : Decidable (RealDate y m d) := by
  unfold RealDate; infer_instance

/-- Days from 1970-01-01 to the civil date `y-m-d` (proleptic Gregorian,
linear in `d` so that out-of-range days roll over exactly as JS
`Date.prototype.setFullYear` does). -/
def daysFromCivil (y m d : Int) : Int :=
  let y' : Int := if m ≤ 2 then y - 1 else y
  let era : Int := Int.fdiv y' 400
  let yoe : Int := y' - era * 400
  let mp : Int := if m > 2 then m - 3 else m + 9
  let doy : Int := (153 * mp + 2) / 5 + d - 1
  let doe : Int := yoe * 365 + yoe / 4 - yoe / 100 + doy
  era * 146097 + doe - 719468

/-- Epoch milliseconds of UTC midnight of a civil date (the time value of JS
`new Date("YYYY-MM-DD")`). -/
def dateMillisOf (y m d : Nat) : Int :=
  86400000 * daysFromCivil (y : Int) (m : Int) (d : Int)

/-- The current civil instant (UTC): what `new Date()` reads from the system
clock, split into the components the source accesses. -/
structure Clock where
  year : Int
  month : Int
  day : Int
  msOfDay : Int

/-- Epoch milliseconds of the current instant (`Date.now()`). -/
def nowMillis (c : Clock) : Int :=
  86400000 * daysFromCivil c.year c.month c.day + c.msOfDay

/-- Epoch milliseconds of the source's `minDate`: the current instant with
`setFullYear(getFullYear() - 150)`, i.e. the current moment minus 150 years. -/
def minDateMillis (c : Clock) : Int :=
  86400000 * daysFromCivil (c.year - 150) c.month c.day + c.msOfDay

/-- The regex `/^\d{4}-\d{2}-\d{2}$/` of `isValidBirthDate`. -/
def patternTestL (l : List Char) : Bool :=
  match l with
  | [y1, y2, y3, y4, h1, m1, m2, h2, d1, d2] =>
    isDigitChar y1 && isDigitChar y2 && isDigitChar y3 && isDigitChar y4 &&
    h1 == '-' && isDigitChar m1 && isDigitChar m2 && h2 == '-' &&
    isDigitChar d1 && isDigitChar d2
  | _ => false

/-- JS `new Date(s)` on a `YYYY-MM-DD` candidate: the parsed components when
the string is a conforming ISO date denoting a real calendar date, `none`
(i.e. `Invalid Date`) otherwise.  Other JS date formats are outside the scope
of this embedding. -/
def parseDateL (l : List Char) : Option (Nat × Nat × Nat) :=
  match l with
  | [y1, y2, y3, y4, h1, m1, m2, h2, d1, d2] =>
    if isDigitChar y1 && isDigitChar y2 && isDigitChar y3 && isDigitChar y4 &&
        h1 == '-' && isDigitChar m1 && isDigitChar m2 && h2 == '-' &&
        isDigitChar d1 && isDigitChar d2 then
      let y := 1000 * digitVal y1 + 100 * digitVal y2 + 10 * digitVal y3 + digitVal y4
      let m := 10 * digitVal m1 + digitVal m2
      let d := 10 * digitVal d1 + digitVal d2
      if RealDate y m d then some (y, m, d) else none
    else none
  | _ => none

/-- `utils.js` `isValidBirthDate` on the character list. -/
def isValidBirthDateL (c : Clock) (l : List Char) : Bool :=
  if l = [] then false
  else if !patternTestL l then false
  else
    match parseDateL l with
    | none => false
    | some (y, m, d) =>
      if dateMillisOf y m d > nowMillis c then false
      else if dateMillisOf y m d < minDateMillis c then false
      else true

/-- `utils.js` `isValidBirthDate`: format check, real-date check, not in the
future, not more than 150 years in the past. -/
def isValidBirthDate (c : Clock) (s : String) : Bool :=
  isValidBirthDateL c s.data

/-- `utils.js` `formatDateToFrench` on the character list. -/
def formatDateToFrenchL (l : List Char) : List Char :=
  if l = [] then []
  else
    match parseDateL l with
    | none => []
    | some (y, m, d) => pad2 d ++ '/' :: pad2 m ++ '/' :: natToDigits y

/-- `utils.js` `formatDateToFrench`: `DD/MM/YYYY` from a parsed date, empty
string for empty or unparseable input. -/
def formatDateToFrench (s : String) : String := ⟨formatDateToFrenchL s.data⟩

/-- Modelled from the spec's words for `isValidBirthDate`: the string is
exactly four digits, a hyphen, two digits, a hyphen and two digits; its
components form a real calendar date; that date is not strictly after the
current moment and not earlier than the current moment minus 150 years. -/
def BirthDateSpec (c : Clock) (s : String) : Prop :=
  ∃ y1 y2 y3 y4 m1 m2 d1 d2 : Char,
    s.data = [y1, y2, y3, y4, '-', m1, m2, '-', d1, d2] ∧
    (isDigitChar y1 && isDigitChar y2 && isDigitChar y3 && isDigitChar y4 &&
      isDigitChar m1 && isDigitChar m2 && isDigitChar d1 && isDigitChar d2) = true ∧
    RealDate (1000 * digitVal y1 + 100 * digitVal y2 + 10 * digitVal y3 + digitVal y4)
      (10 * digitVal m1 + digitVal m2) (10 * digitVal d1 + digitVal d2) ∧
    dateMillisOf (1000 * digitVal y1 + 100 * digitVal y2 + 10 * digitVal y3 + digitVal y4)
      (10 * digitVal m1 + digitVal m2) (10 * digitVal d1 + digitVal d2) ≤ nowMillis c ∧
    minDateMillis c ≤
      dateMillisOf (1000 * digitVal y1 + 100 * digitVal y2 + 10 * digitVal y3 + digitVal y4)
        (10 * digitVal m1 + digitVal m2) (10 * digitVal d1 + digitVal d2)

/-- A student record (`server.js`): immutable `id`, `name`, `birth`, plus the
optional `createdAt`/`updatedAt` timestamps. -/
structure Student where
  id : String
  name : String
  birth : String
  createdAt : Option String
  updatedAt : Option String
deriving DecidableEq, Repr

/-- The seeded in-memory collection (`let students = [...]`). -/
def seedStudents : List Student :=
  [⟨"1", "Sonia", "2019-05-14", none, none⟩,
   ⟨"2", "Antoine", "2000-12-05", none, none⟩,
   ⟨"3", "Alice", "1990-09-14", none, none⟩,
   ⟨"4", "Sophie", "2001-10-02", none, none⟩,
   ⟨"5", "Bernard", "1980-08-21", none, none⟩]

/-- Outcome of a mutation route, as a tagged variant: the structured failure
kinds of the spec's error taxonomy, or the successful record/name. -/
inductive MutationResult where
  | validationFailure (errors : List String)
  | invalidId
  | notFound
  | duplicateName
  | added (s : Student)
  | updated (s : Student)
  | deleted (name : String)
deriving DecidableEq, Repr

/-- JS `Array.prototype.find`: first element satisfying the predicate. -/
def jsFind (p : Student → Bool) : List Student → Option Student
  | [] => none
  | s :: rest => if p s then some s else jsFind p rest

/-- JS `Array.prototype.findIndex` (as an `Option` instead of `-1`). -/
def jsFindIndex (p : Student → Bool) : List Student → Option Nat
  | [] => none
  | s :: rest => if p s then some 0 else (jsFindIndex p rest).map (· + 1)

/-- The `validateStudentData` middleware: the list of error messages (empty
means the request proceeds with the name sanitized). -/
def validateStudentData (c : Clock) (name birth : String) : List String :=
  (if name = "" || trimList name.data = [] then ["Le nom est requis"]
   else if !isValidName name then ["Le nom doit contenir entre 2 et 50 caracteres"]
   else []) ++
  (if birth = "" then ["La date de naissance est requise"]
   else if !isValidBirthDate c birth then ["Veuillez entrer une date de naissance valide"]
   else [])

/-- `POST /add-student`: validate, reject case-insensitive duplicate names,
otherwise append the new record built from the generated id and timestamp. -/
def addStudent (c : Clock) (students : List Student) (name birth newId ts : String) :
    MutationResult × List Student :=
  let errors := validateStudentData c name birth
  if errors = [] then
    let name' := sanitizeName name
    match jsFind (fun s => lowerStr s.name == lowerStr name') students with
    | some _ => (.duplicateName, students)
    | none =>
      let newStudent : Student := ⟨newId, name', birth, some ts, none⟩
      (.added newStudent, students ++ [newStudent])
  else (.validationFailure errors, students)

/-- `POST /update/:id`: validate, check the id, locate the record, reject if a
different record already holds the name, otherwise replace name/birth in place
and stamp `updatedAt` (the spread keeps `id` and `createdAt`). -/
def updateStudent (c : Clock) (students : List Student) (id name birth ts : String) :
    MutationResult × List Student :=
  let errors := validateStudentData c name birth
  if errors = [] then
    let name' := sanitizeName name
    if !isValidStudentId id then (.invalidId, students)
    else
      match jsFindIndex (fun s => s.id == id) students with
      | none => (.notFound, students)
      | some i =>
        match students[i]? with
        | none => (.notFound, students)
        | some old =>
          match jsFind (fun s => lowerStr s.name == lowerStr name' && s.id != id) students with
          | some _ => (.duplicateName, students)
          | none =>
            let updated : Student := ⟨old.id, name', birth, old.createdAt, some ts⟩
            (.updated updated, students.set i updated)
  else (.validationFailure errors, students)

/-- `POST /delete/:id`: check the id, locate the record, `splice` it out. -/
def deleteStudent (students : List Student) (id : String) :
    MutationResult × List Student :=
  if !isValidStudentId id then (.invalidId, students)
  else
    match jsFindIndex (fun s => s.id == id) students with
    | none => (.notFound, students)
    | some i =>
      match students[i]? with
      | none => (.notFound, students)
      | some old => (.deleted old.name, students.take i ++ students.drop (i + 1))

/-- One mutation request, with the oracle inputs (generated id, timestamp)
recorded alongside the user inputs. -/
inductive Op where
  | add (name birth newId ts : String)
  | update (id name birth ts : String)
  | del (id : String)

/-- The collection after handling one request. -/
def applyOp (c : Clock) (students : List Student) : Op → List Student
  | .add name birth newId ts => (addStudent c students name birth newId ts).2
  | .update id name birth ts => (updateStudent c students id name birth ts).2
  | .del id => (deleteStudent students id).2

/-- The collection after a sequence of requests. -/
def runOps (c : Clock) (students : List Student) : List Op → List Student
  | [] => students
  | op :: rest => runOps c (applyOp c students op) rest

/-- Each generated id handed to an `add` is fresh for the collection it meets
(the documented contract of `generateStudentId`). -/
def freshIds (c : Clock) (students : List Student) : List Op → Bool
  | [] => true
  | op :: rest =>
    (match op with
     | .add _ _ newId _ => students.all (fun s => s.id != newId)
     | _ => true) && freshIds c (applyOp c students op) rest

/-- No two records carry case-insensitively equal names. -/
def NamesUniqueCI (l : List Student) : Prop :=
  l.Pairwise (fun a b => lowerStr a.name ≠ lowerStr b.name)

/-- No two records carry the same id. -/
def IdsUnique (l : List Student) : Prop :=
  l.Pairwise (fun a b => a.id ≠ b.id)

theorem jsFind_eq_none {p : Student → Bool} {l : List Student} :
    jsFind p l = none ↔ ∀ s ∈ l, p s = false := by
  induction l with
  | nil => simp [jsFind]
  | cons a rest ih => by_cases h : p a <;> simp [jsFind, h, ih]

theorem jsFindIndex_eq_none {p : Student → Bool} {l : List Student} :
    jsFindIndex p l = none ↔ ∀ s ∈ l, p s = false := by
  induction l with
  | nil => simp [jsFindIndex]
  | cons a rest ih => by_cases h : p a <;> simp [jsFindIndex, h, ih]

theorem jsFindIndex_some {p : Student → Bool} {l : List Student} {i : Nat}
    (h : jsFindIndex p l = some i) : ∃ x, l[i]? = some x ∧ p x = true := by
  induction l generalizing i with
  | nil => simp [jsFindIndex] at h
  | cons a rest ih =>
    by_cases hp : p a
    · simp [jsFindIndex, hp] at h
      subst h
      exact ⟨a, by simp, hp⟩
    · simp [jsFindIndex, hp] at h
      obtain ⟨j, hj, rfl⟩ := h
      obtain ⟨x, hx, hpx⟩ := ih hj
      exact ⟨x, by simpa using hx, hpx⟩

theorem isValidName_facts {s : String} (h : isValidName s = true) :
    s ≠ "" ∧ 2 ≤ (trimList s.data).length ∧ (trimList s.data).length ≤ 50 ∧
      (trimList s.data).any isDangerous = false := by
  unfold isValidName isValidNameL at h
  split at h
  · exact absurd h (by simp)
  · next hne =>
    split at h
    · exact absurd h (by simp)
    · next hlen =>
      split at h
      · exact absurd h (by simp)
      · split at h
        · exact absurd h (by simp)
        · next hdang =>
          refine ⟨?_, ?_, ?_, ?_⟩
          · intro he
            subst he
            exact hne rfl
          · simp at hlen
            omega
          · simp at hlen
            omega
          · simpa using hdang

theorem validate_ok {c : Clock} {name birth : String}
    (h1 : isValidName name = true) (h2 : isValidBirthDate c birth = true) :
    validateStudentData c name birth = [] := by
  obtain ⟨hne, hlen2, _, _⟩ := isValidName_facts h1
  have htne : trimList name.data ≠ [] := by
    intro ht
    rw [ht] at hlen2
    simp at hlen2
  have hbne : birth ≠ "" := by
    intro he
    subst he
    simp [isValidBirthDate, isValidBirthDateL, show ("" : String).data = [] from rfl] at h2
  simp [validateStudentData, hne, htne, h1, h2, hbne]

/-- A sample clock used by the concrete witnesses: 2025-06-15T00:00:00Z. -/
def demoClock : Clock := ⟨2025, 6, 15, 0⟩

/-- C2: when name and birth pass validation but an existing record's name
equals the sanitized name case-insensitively, the add is rejected with a
DuplicateName outcome and the collection is returned unchanged (same size,
same records, same order). -/
theorem add_rejects_duplicate_name (c : Clock) (students : List Student)
    (name birth newId ts : String)
    (h1 : isValidName name = true) (h2 : isValidBirthDate c birth = true)
    (hdup : ∃ s ∈ students, lowerStr s.name = lowerStr (sanitizeName name)) :
    addStudent c students name birth newId ts = (.duplicateName, students) := by
  unfold addStudent
  rw [validate_ok h1 h2]
  cases hfind : jsFind (fun s => lowerStr s.name == lowerStr (sanitizeName name)) students with
  | none =>
    rw [jsFind_eq_none] at hfind
    obtain ⟨s, hs, he⟩ := hdup
    have := hfind s hs
    simp [he] at this
  | some s => simp [hfind]

/-- Witness for C2: adding "alice" to the seeded collection (which holds
"Alice") is rejected as a duplicate and leaves the collection untouched. -/
theorem add_rejects_duplicate_name_witness :
    addStudent demoClock seedStudents "alice" "2000-01-01" "6" "T" =
      (.duplicateName, seedStudents) :=
  add_rejects_duplicate_name demoClock seedStudents "alice" "2000-01-01" "6" "T"
    (by decide) (by decide) (by decide)

/-- C3: when name and birth pass validation and no existing record matches the
sanitized name case-insensitively, the add appends exactly one record built
from the sanitized name, the supplied birth, the generated id and the
`createdAt` stamp, leaves all pre-existing records unchanged, and returns the
new record. -/
theorem add_appends_new_record (c : Clock) (students : List Student)
    (name birth newId ts : String)
    (h1 : isValidName name = true) (h2 : isValidBirthDate c birth = true)
    (hnodup : ∀ s ∈ students, lowerStr s.name ≠ lowerStr (sanitizeName name)) :
    addStudent c students name birth newId ts =
      (.added ⟨newId, sanitizeName name, birth, some ts, none⟩,
        students ++ [⟨newId, sanitizeName name, birth, some ts, none⟩]) := by
  unfold addStudent
  rw [validate_ok h1 h2]
  have hfind : jsFind (fun s => lowerStr s.name == lowerStr (sanitizeName name)) students = none := by
    rw [jsFind_eq_none]
    intro s hs
    simpa using hnodup s hs
  simp [hfind]

/-- Witness for C3: adding "Zoe" to the seeded collection appends exactly the
new record at the end. -/
theorem add_appends_new_record_witness :
    addStudent demoClock seedStudents "Zoe" "2000-01-01" "6" "T" =
      (.added ⟨"6", "Zoe", "2000-01-01", some "T", none⟩,
        seedStudents ++ [⟨"6", "Zoe", "2000-01-01", some "T", none⟩]) :=
  add_appends_new_record demoClock seedStudents "Zoe" "2000-01-01" "6" "T"
    (by decide) (by decide) (by decide)

/-- C5: delete rejects an invalid or unknown id leaving the collection
unchanged; otherwise it removes exactly the first record whose id matches,
keeping the relative order and contents of the remaining records. -/
theorem delete_contract (students : List Student) (id : String) :
    (isValidStudentId id = false → deleteStudent students id = (.invalidId, students)) ∧
    (isValidStudentId id = true → (∀ s ∈ students, s.id ≠ id) →
      deleteStudent students id = (.notFound, students)) ∧
    (∀ i old, isValidStudentId id = true →
      jsFindIndex (fun s => s.id == id) students = some i →
      students[i]? = some old →
      deleteStudent students id =
        (.deleted old.name, students.take i ++ students.drop (i + 1)) ∧
      old.id = id ∧
      (students.take i ++ students.drop (i + 1)).length + 1 = students.length) := by
  refine ⟨?_, ?_, ?_⟩
  · intro hid
    simp [deleteStudent, hid]
  · intro hid hno
    have hfind : jsFindIndex (fun s => s.id == id) students = none := by
      rw [jsFindIndex_eq_none]
      intro s hs
      simpa using hno s hs
    simp [deleteStudent, hid, hfind]
  · intro i old hid hfind hget
    obtain ⟨x, hx, hpx⟩ := jsFindIndex_some hfind
    rw [hx] at hget
    cases hget
    have hi : i < students.length := by
      rw [List.getElem?_eq_some] at hx
      exact hx.1
    refine ⟨by simp [deleteStudent, hid, hfind, hx], by simpa using hpx, ?_⟩
    simp
    omega

/-- Witness for C5: deleting id "2" from the seeded collection removes exactly
the "Antoine" record and keeps the other four in order. -/
theorem delete_contract_witness :
    deleteStudent seedStudents "2" =
      (.deleted "Antoine", seedStudents.take 1 ++ seedStudents.drop 2) :=
  ((delete_contract seedStudents "2").2.2 1 ⟨"2", "Antoine", "2000-12-05", none, none⟩
    (by decide) (by decide) (by decide)).1

/-- C4: with a valid name and birth, update rejects an invalid id, an unknown
id, or a name already held by a record with a different id, each time leaving
the collection completely unchanged; otherwise it replaces the matched
record's name and birth in place, stamps `updatedAt`, preserves `id` and
`createdAt`, and leaves every other record and the order unchanged. -/
theorem update_contract (c : Clock) (students : List Student) (id name birth ts : String)
    (h1 : isValidName name = true) (h2 : isValidBirthDate c birth = true) :
    (isValidStudentId id = false →
      updateStudent c students id name birth ts = (.invalidId, students)) ∧
    (isValidStudentId id = true → (∀ s ∈ students, s.id ≠ id) →
      updateStudent c students id name birth ts = (.notFound, students)) ∧
    (∀ i, isValidStudentId id = true →
      jsFindIndex (fun s => s.id == id) students = some i →
      (∃ s ∈ students, s.id ≠ id ∧ lowerStr s.name = lowerStr (sanitizeName name)) →
      updateStudent c students id name birth ts = (.duplicateName, students)) ∧
    (∀ i old, isValidStudentId id = true →
      jsFindIndex (fun s => s.id == id) students = some i →
      students[i]? = some old →
      (∀ s ∈ students, lowerStr s.name = lowerStr (sanitizeName name) → s.id = id) →
      updateStudent c students id name birth ts =
        (.updated ⟨old.id, sanitizeName name, birth, old.createdAt, some ts⟩,
          students.set i ⟨old.id, sanitizeName name, birth, old.createdAt, some ts⟩)) := by
  refine ⟨?_, ?_, ?_, ?_⟩
  · intro hid
    unfold updateStudent
    rw [validate_ok h1 h2]
    simp [hid]
  · intro hid hno
    have hfind : jsFindIndex (fun s => s.id == id) students = none := by
      rw [jsFindIndex_eq_none]
      intro s hs
      simpa using hno s hs
    unfold updateStudent
    rw [validate_ok h1 h2]
    simp [hid, hfind]
  · intro i hid hfind hdup
    obtain ⟨x, hx, hpx⟩ := jsFindIndex_some hfind
    have hdupfind :
        ∃ s', jsFind (fun s => lowerStr s.name == lowerStr (sanitizeName name) && s.id != id)
          students = some s' := by
      cases hf : jsFind (fun s => lowerStr s.name == lowerStr (sanitizeName name) && s.id != id)
        students with
      | none =>
        rw [jsFind_eq_none] at hf
        obtain ⟨s, hs, hsid, hsname⟩ := hdup
        have := hf s hs
        simp [hsname, hsid] at this
      | some s' => exact ⟨s', rfl⟩
    obtain ⟨s', hs'⟩ := hdupfind
    unfold updateStudent
    rw [validate_ok h1 h2]
    simp [hid, hfind, hx, hs']
  · intro i old hid hfind hget hnodup
    have hdupnone :
        jsFind (fun s => lowerStr s.name == lowerStr (sanitizeName name) && s.id != id)
          students = none := by
      rw [jsFind_eq_none]
      intro s hs
      by_cases hl : lowerStr s.name = lowerStr (sanitizeName name)
      · have := hnodup s hs hl
        simp [hl, this]
      · simp [hl]
    unfold updateStudent
    rw [validate_ok h1 h2]
    simp [hid, hfind, hget, hdupnone]

/-- Witness for C4: updating id "3" of the seeded collection to "Alicia"
replaces name/birth in place, stamps `updatedAt`, preserves id and
`createdAt`. -/
theorem update_contract_witness :
    updateStudent demoClock seedStudents "3" "Alicia" "1991-02-03" "T" =
      (.updated ⟨"3", "Alicia", "1991-02-03", none, some "T"⟩,
        seedStudents.set 2 ⟨"3", "Alicia", "1991-02-03", none, some "T"⟩) := by
  have h := (update_contract demoClock seedStudents "3" "Alicia" "1991-02-03" "T"
    (by decide) (by decide)).2.2.2 2 ⟨"3", "Alice", "1990-09-14", none, none⟩
    (by decide) (by decide) (by decide) (by decide)
  have hs : sanitizeName "Alicia" = "Alicia" := by decide
  rw [hs] at h
  exact h

theorem add_preserves (c : Clock) (l : List Student) (name birth newId ts : String)
    (hids : IdsUnique l) (hnames : NamesUniqueCI l)
    (hfresh : ∀ s ∈ l, s.id ≠ newId) :
    IdsUnique (addStudent c l name birth newId ts).2 ∧
      NamesUniqueCI (addStudent c l name birth newId ts).2 := by
  by_cases hv : validateStudentData c name birth = []
  · cases hf : jsFind (fun s => lowerStr s.name == lowerStr (sanitizeName name)) l with
    | some s =>
      simp only [addStudent, hv, hf]
      simpa using ⟨hids, hnames⟩
    | none =>
      have hf' := jsFind_eq_none.mp hf
      have h2 : (addStudent c l name birth newId ts).2 =
          l ++ [⟨newId, sanitizeName name, birth, some ts, none⟩] := by
        simp [addStudent, hv, hf]
      rw [h2]
      constructor
      · rw [IdsUnique, List.pairwise_append]
        refine ⟨hids, by simp, ?_⟩
        intro a ha b hb
        simp only [List.mem_singleton] at hb
        subst hb
        exact hfresh a ha
      · rw [NamesUniqueCI, List.pairwise_append]
        refine ⟨hnames, by simp, ?_⟩
        intro a ha b hb
        simp only [List.mem_singleton] at hb
        subst hb
        simpa using hf' a ha
  · simp only [addStudent, hv]
    simpa using ⟨hids, hnames⟩

theorem update_preserves (c : Clock) (l : List Student) (id name birth ts : String)
    (hids : IdsUnique l) (hnames : NamesUniqueCI l) :
    IdsUnique (updateStudent c l id name birth ts).2 ∧
      NamesUniqueCI (updateStudent c l id name birth ts).2 := by
  by_cases hv : validateStudentData c name birth = []
  · by_cases hid : isValidStudentId id = true
    · cases hfind : jsFindIndex (fun s => s.id == id) l with
      | none =>
        simp only [updateStudent, hv, hid, hfind]
        simpa using ⟨hids, hnames⟩
      | some i =>
        obtain ⟨x, hx, hpx⟩ := jsFindIndex_some hfind
        have hxid : x.id = id := by simpa using hpx
        obtain ⟨hi, hxeq⟩ := List.getElem?_eq_some.mp hx
        cases hdup : jsFind
            (fun s => lowerStr s.name == lowerStr (sanitizeName name) && s.id != id) l with
        | some s =>
          simp only [updateStudent, hv, hid, hfind, hx, hdup]
          simpa using ⟨hids, hnames⟩
        | none =>
          have hdupall := jsFind_eq_none.mp hdup
          have hdup' : ∀ s ∈ l, lowerStr s.name = lowerStr (sanitizeName name) → s.id = id := by
            intro s hs hl
            have := hdupall s hs
            simp [hl] at this
            exact this
          have h2 : (updateStudent c l id name birth ts).2 =
              l.set i ⟨x.id, sanitizeName name, birth, x.createdAt, some ts⟩ := by
            simp [updateStudent, hv, hid, hfind, hx, hdup]
          rw [h2]
          constructor
          · rw [IdsUnique, List.pairwise_iff_getElem] at hids ⊢
            intro j k hj hk hjk
            simp only [List.length_set] at hj hk
            rw [List.getElem_set, List.getElem_set]
            by_cases hij : i = j
            · subst hij
              have hik : i ≠ k := by omega
              rw [if_pos rfl, if_neg hik]
              intro hcon
              have hne : l[i].id ≠ l[k].id := hids i k hi hk hjk
              rw [hxeq] at hne
              exact hne hcon
            · by_cases hik : i = k
              · subst hik
                rw [if_neg hij, if_pos rfl]
                intro hcon
                have hne : l[j].id ≠ l[i].id := hids j i hj hi hjk
                rw [hxeq] at hne
                exact hne hcon
              · rw [if_neg hij, if_neg hik]
                exact hids j k hj hk hjk
          · rw [NamesUniqueCI, List.pairwise_iff_getElem] at hnames ⊢
            rw [IdsUnique, List.pairwise_iff_getElem] at hids
            intro j k hj hk hjk
            simp only [List.length_set] at hj hk
            rw [List.getElem_set, List.getElem_set]
            by_cases hij : i = j
            · subst hij
              have hik : i ≠ k := by omega
              rw [if_pos rfl, if_neg hik]
              intro hcon
              have hkid : l[k].id = id :=
                hdup' _ (List.getElem_mem hk) (by simpa using hcon.symm)
              have hne : l[i].id ≠ l[k].id := hids i k hi hk hjk
              rw [hxeq] at hne
              exact hne (by rw [hxid, hkid])
            · by_cases hik : i = k
              · subst hik
                rw [if_neg hij, if_pos rfl]
                intro hcon
                have hjid : l[j].id = id :=
                  hdup' _ (List.getElem_mem hj) (by simpa using hcon)
                have hne : l[j].id ≠ l[i].id := hids j i hj hi hjk
                rw [hxeq] at hne
                exact hne (by rw [hjid, hxid])
              · rw [if_neg hij, if_neg hik]
                exact hnames j k hj hk hjk
    · simp only [Bool.not_eq_true] at hid
      simp only [updateStudent, hv, hid]
      simpa using ⟨hids, hnames⟩
  · simp only [updateStudent, hv]
    simpa using ⟨hids, hnames⟩

theorem delete_preserves (l : List Student) (id : String)
    (hids : IdsUnique l) (hnames : NamesUniqueCI l) :
    IdsUnique (deleteStudent l id).2 ∧ NamesUniqueCI (deleteStudent l id).2 := by
  by_cases hid : isValidStudentId id = true
  · cases hfind : jsFindIndex (fun s => s.id == id) l with
    | none =>
      simp only [deleteStudent, hid, hfind]
      simpa using ⟨hids, hnames⟩
    | some i =>
      obtain ⟨x, hx, _⟩ := jsFindIndex_some hfind
      have h2 : (deleteStudent l id).2 = l.take i ++ l.drop (i + 1) := by
        simp [deleteStudent, hid, hfind, hx]
      rw [h2]
      have hsub : List.Sublist (l.take i ++ l.drop (i + 1)) l := by
        rw [← List.eraseIdx_eq_take_drop_succ]
        exact List.eraseIdx_sublist l i
      exact ⟨hids.sublist hsub, hnames.sublist hsub⟩
  · simp only [Bool.not_eq_true] at hid
    simp only [deleteStudent, hid]
    simpa using ⟨hids, hnames⟩

instance (l : List Student) : Decidable (IdsUnique l) := by
  unfold IdsUnique; infer_instance

instance (l : List Student) : Decidable (NamesUniqueCI l) := by
  unfold NamesUniqueCI; infer_instance

/-- C1: starting from the seeded five-record collection, after any sequence of
add, update and delete requests in which each generated id is fresh for the
collection it meets (the contract of `generateStudentId`), no two records
have case-insensitively equal names. -/
theorem names_unique_invariant (c : Clock) (ops : List Op)
    (h : freshIds c seedStudents ops = true) :
    NamesUniqueCI (runOps c seedStudents ops) := by
  suffices H : ∀ (ops : List Op) (l : List Student), IdsUnique l → NamesUniqueCI l →
      freshIds c l ops = true →
      IdsUnique (runOps c l ops) ∧ NamesUniqueCI (runOps c l ops) by
    exact (H ops seedStudents (by decide) (by decide) h).2
  intro ops
  induction ops with
  | nil =>
    intro l h1 h2 _
    exact ⟨h1, h2⟩
  | cons op rest ih =>
    intro l h1 h2 hf
    cases op with
    | add name birth newId ts =>
      simp only [freshIds, Bool.and_eq_true] at hf
      obtain ⟨hop, hrest⟩ := hf
      have hfresh : ∀ s ∈ l, s.id ≠ newId := by
        intro s hs
        have := List.all_eq_true.mp hop s hs
        simpa using this
      have hstep := add_preserves c l name birth newId ts h1 h2 hfresh
      exact ih _ hstep.1 hstep.2 hrest
    | update id name birth ts =>
      simp only [freshIds, Bool.true_and] at hf
      have hstep := update_preserves c l id name birth ts h1 h2
      exact ih _ hstep.1 hstep.2 hf
    | del id =>
      simp only [freshIds, Bool.true_and] at hf
      have hstep := delete_preserves l id h1 h2
      exact ih _ hstep.1 hstep.2 hf

/-- A sample request trace used by the C1 witness. -/
def demoOps : List Op :=
  [.add "Zoe" "2000-01-01" "6" "T", .del "1", .update "3" "Alix" "1991-02-03" "T2"]

/-- Witness for C1: the sample trace uses fresh ids, and the resulting
collection has case-insensitively unique names. -/
theorem names_unique_invariant_witness :
    freshIds demoClock seedStudents demoOps = true ∧
      NamesUniqueCI (runOps demoClock seedStudents demoOps) :=
  ⟨by decide, names_unique_invariant demoClock demoOps (by decide)⟩

/-- C8 fails on the code: `sanitizeName` removes only the characters `<` and
`>` themselves, so `" A  B<script> "` sanitizes to `"A Bscript"`, not `"A B"`. -/
theorem sanitize_example_counterexample :
    sanitizeName " A  B<script> " ≠ "A B" := by decide

/-- C8 (amended): `sanitizeName " A  B<script> "` trims, collapses the double
space, and strips the `<` and `>` characters (keeping the letters of
"script"), yielding exactly `"A Bscript"`. -/
theorem sanitize_example :
    sanitizeName " A  B<script> " = "A Bscript" := by decide

theorem digits_split {y1 y2 y3 y4 m1 m2 d1 d2 : Char}
    (h : (isDigitChar y1 && isDigitChar y2 && isDigitChar y3 && isDigitChar y4 &&
        isDigitChar m1 && isDigitChar m2 && isDigitChar d1 && isDigitChar d2) = true) :
    isDigitChar y1 = true ∧ isDigitChar y2 = true ∧ isDigitChar y3 = true ∧
      isDigitChar y4 = true ∧ isDigitChar m1 = true ∧ isDigitChar m2 = true ∧
      isDigitChar d1 = true ∧ isDigitChar d2 = true := by
  simp only [Bool.and_eq_true] at h
  tauto

theorem patternTestL_shape {l : List Char} (h : patternTestL l = true) :
    ∃ y1 y2 y3 y4 m1 m2 d1 d2 : Char,
      l = [y1, y2, y3, y4, '-', m1, m2, '-', d1, d2] ∧
      (isDigitChar y1 && isDigitChar y2 && isDigitChar y3 && isDigitChar y4 &&
        isDigitChar m1 && isDigitChar m2 && isDigitChar d1 && isDigitChar d2) = true := by
  rcases l with _ | ⟨a, _ | ⟨b, _ | ⟨c, _ | ⟨d, _ | ⟨e, _ | ⟨f, _ | ⟨g, _ | ⟨h8, _ | ⟨i, _ |
    ⟨j, _ | ⟨k, t⟩⟩⟩⟩⟩⟩⟩⟩⟩⟩⟩ <;>
    simp only [patternTestL, Bool.and_eq_true, beq_iff_eq, and_assoc,
      Bool.false_eq_true] at h
  obtain ⟨h1, h2, h3, h4, he, h5, h6, hh, h7, h8'⟩ := h
  subst he
  subst hh
  exact ⟨a, b, c, d, f, g, i, j, rfl, by simp [h1, h2, h3, h4, h5, h6, h7, h8']⟩

theorem patternTestL_of_digits (y1 y2 y3 y4 m1 m2 d1 d2 : Char)
    (hdig : (isDigitChar y1 && isDigitChar y2 && isDigitChar y3 && isDigitChar y4 &&
        isDigitChar m1 && isDigitChar m2 && isDigitChar d1 && isDigitChar d2) = true) :
    patternTestL [y1, y2, y3, y4, '-', m1, m2, '-', d1, d2] = true := by
  obtain ⟨h1, h2, h3, h4, h5, h6, h7, h8⟩ := digits_split hdig
  simp [patternTestL, h1, h2, h3, h4, h5, h6, h7, h8]

theorem parseDateL_shape (y1 y2 y3 y4 m1 m2 d1 d2 : Char)
    (hdig : (isDigitChar y1 && isDigitChar y2 && isDigitChar y3 && isDigitChar y4 &&
        isDigitChar m1 && isDigitChar m2 && isDigitChar d1 && isDigitChar d2) = true) :
    parseDateL [y1, y2, y3, y4, '-', m1, m2, '-', d1, d2] =
      if RealDate (1000 * digitVal y1 + 100 * digitVal y2 + 10 * digitVal y3 + digitVal y4)
          (10 * digitVal m1 + digitVal m2) (10 * digitVal d1 + digitVal d2) then
        some (1000 * digitVal y1 + 100 * digitVal y2 + 10 * digitVal y3 + digitVal y4,
          10 * digitVal m1 + digitVal m2, 10 * digitVal d1 + digitVal d2)
      else none := by
  obtain ⟨h1, h2, h3, h4, h5, h6, h7, h8⟩ := digits_split hdig
  simp [parseDateL, h1, h2, h3, h4, h5, h6, h7, h8]

theorem isValidBirthDateL_shape (c : Clock) (y1 y2 y3 y4 m1 m2 d1 d2 : Char)
    (hdig : (isDigitChar y1 && isDigitChar y2 && isDigitChar y3 && isDigitChar y4 &&
        isDigitChar m1 && isDigitChar m2 && isDigitChar d1 && isDigitChar d2) = true) :
    isValidBirthDateL c [y1, y2, y3, y4, '-', m1, m2, '-', d1, d2] =
      if RealDate (1000 * digitVal y1 + 100 * digitVal y2 + 10 * digitVal y3 + digitVal y4)
          (10 * digitVal m1 + digitVal m2) (10 * digitVal d1 + digitVal d2) then
        (if dateMillisOf (1000 * digitVal y1 + 100 * digitVal y2 + 10 * digitVal y3 + digitVal y4)
            (10 * digitVal m1 + digitVal m2) (10 * digitVal d1 + digitVal d2) > nowMillis c then
          false
        else if dateMillisOf (1000 * digitVal y1 + 100 * digitVal y2 + 10 * digitVal y3 + digitVal y4)
            (10 * digitVal m1 + digitVal m2) (10 * digitVal d1 + digitVal d2) < minDateMillis c then
          false
        else true)
      else false := by
  rw [isValidBirthDateL]
  rw [if_neg (by simp)]
  rw [patternTestL_of_digits y1 y2 y3 y4 m1 m2 d1 d2 hdig]
  rw [parseDateL_shape y1 y2 y3 y4 m1 m2 d1 d2 hdig]
  by_cases hreal : RealDate
      (1000 * digitVal y1 + 100 * digitVal y2 + 10 * digitVal y3 + digitVal y4)
      (10 * digitVal m1 + digitVal m2) (10 * digitVal d1 + digitVal d2)
  · rw [if_pos hreal, if_pos hreal]
    simp
  · rw [if_neg hreal, if_neg hreal]
    simp

/-- C6: `isValidBirthDate` returns true exactly when the string is four
digits, hyphen, two digits, hyphen, two digits, its components form a real
calendar date, and that date is neither strictly after the current moment nor
earlier than the current moment minus 150 years. -/
theorem birth_date_validation_characterized (c : Clock) (s : String) :
    isValidBirthDate c s = true ↔ BirthDateSpec c s := by
  unfold isValidBirthDate
  constructor
  · intro h
    have hpat : patternTestL s.data = true := by
      by_contra hpat
      have hpat' : patternTestL s.data = false := by simpa using hpat
      rw [isValidBirthDateL] at h
      by_cases hnil : s.data = []
      · rw [if_pos hnil] at h
        exact absurd h (by simp)
      · rw [if_neg hnil, hpat'] at h
        exact absurd h (by simp)
    obtain ⟨y1, y2, y3, y4, m1, m2, d1, d2, hdata, hdig⟩ := patternTestL_shape hpat
    rw [hdata] at h
    rw [isValidBirthDateL_shape c y1 y2 y3 y4 m1 m2 d1 d2 hdig] at h
    by_cases hreal : RealDate
        (1000 * digitVal y1 + 100 * digitVal y2 + 10 * digitVal y3 + digitVal y4)
        (10 * digitVal m1 + digitVal m2) (10 * digitVal d1 + digitVal d2)
    · rw [if_pos hreal] at h
      by_cases hgt : dateMillisOf
          (1000 * digitVal y1 + 100 * digitVal y2 + 10 * digitVal y3 + digitVal y4)
          (10 * digitVal m1 + digitVal m2) (10 * digitVal d1 + digitVal d2) > nowMillis c
      · rw [if_pos hgt] at h
        exact absurd h (by simp)
      · rw [if_neg hgt] at h
        by_cases hlt : dateMillisOf
            (1000 * digitVal y1 + 100 * digitVal y2 + 10 * digitVal y3 + digitVal y4)
            (10 * digitVal m1 + digitVal m2) (10 * digitVal d1 + digitVal d2) < minDateMillis c
        · rw [if_pos hlt] at h
          exact absurd h (by simp)
        · exact ⟨y1, y2, y3, y4, m1, m2, d1, d2, hdata, hdig, hreal, by omega, by omega⟩
    · rw [if_neg hreal] at h
      exact absurd h (by simp)
  · rintro ⟨y1, y2, y3, y4, m1, m2, d1, d2, hdata, hdig, hreal, hle, hge⟩
    rw [hdata]
    rw [isValidBirthDateL_shape c y1 y2 y3 y4 m1 m2 d1 d2 hdig]
    have hn1 : ¬(dateMillisOf
        (1000 * digitVal y1 + 100 * digitVal y2 + 10 * digitVal y3 + digitVal y4)
        (10 * digitVal m1 + digitVal m2) (10 * digitVal d1 + digitVal d2) > nowMillis c) := by
      omega
    have hn2 : ¬(dateMillisOf
        (1000 * digitVal y1 + 100 * digitVal y2 + 10 * digitVal y3 + digitVal y4)
        (10 * digitVal m1 + digitVal m2) (10 * digitVal d1 + digitVal d2) < minDateMillis c) := by
      omega
    rw [if_pos hreal, if_neg hn1, if_neg hn2]

theorem isDigitChar_bounds {c : Char} (h : isDigitChar c = true) :
    48 ≤ c.toNat ∧ c.toNat ≤ 57 := by
  simp only [isDigitChar, Bool.and_eq_true, decide_eq_true_eq] at h
  exact h

theorem digitVal_lt_ten {c : Char} (h : isDigitChar c = true) : digitVal c < 10 := by
  obtain ⟨h1, h2⟩ := isDigitChar_bounds h
  unfold digitVal
  omega

theorem digitChar_digitVal {c : Char} (h : isDigitChar c = true) :
    digitChar (digitVal c) = c := by
  obtain ⟨h1, _⟩ := isDigitChar_bounds h
  unfold digitChar digitVal
  rw [show 48 + (c.toNat - 48) = c.toNat by omega]
  exact Char.ofNat_toNat c

theorem digitVal_pos {c : Char} (h : isDigitChar c = true) (hne : c ≠ '0') :
    0 < digitVal c := by
  obtain ⟨h1, _⟩ := isDigitChar_bounds h
  by_contra h0
  have hval : c.toNat = 48 := by
    unfold digitVal at h0
    omega
  apply hne
  have := Char.ofNat_toNat c
  rw [hval] at this
  exact this.symm ▸ rfl

theorem natToDigitsAux_congr :
    ∀ (n f1 f2 : Nat), n < f1 → n < f2 → natToDigitsAux f1 n = natToDigitsAux f2 n := by
  intro n
  induction n using Nat.strong_induction_on with
  | _ n ih =>
    intro f1 f2 hf1 hf2
    cases f1 with
    | zero => omega
    | succ g1 =>
      cases f2 with
      | zero => omega
      | succ g2 =>
        simp only [natToDigitsAux]
        by_cases h : n < 10
        · simp [h]
        · rw [if_neg h, if_neg h]
          have hd : n / 10 < n := Nat.div_lt_self (by omega) (by omega)
          rw [ih (n / 10) hd g1 g2 (by omega) (by omega)]

theorem natToDigits_small {n : Nat} (h : n < 10) : natToDigits n = [digitChar n] := by
  unfold natToDigits natToDigitsAux
  rw [if_pos h]

theorem natToDigits_step {m r : Nat} (hr : r < 10) (hm : 0 < m) :
    natToDigits (10 * m + r) = natToDigits m ++ [digitChar r] := by
  unfold natToDigits
  rw [natToDigitsAux]
  rw [if_neg (by omega)]
  rw [show (10 * m + r) / 10 = m by omega, show (10 * m + r) % 10 = r by omega]
  rw [natToDigitsAux_congr m (10 * m + r) (m + 1) (by omega) (by omega)]

theorem pad2_digits {a b : Char} (ha : isDigitChar a = true) (hb : isDigitChar b = true) :
    pad2 (10 * digitVal a + digitVal b) = [a, b] := by
  have ha10 := digitVal_lt_ten ha
  have hb10 := digitVal_lt_ten hb
  by_cases h0 : digitVal a = 0
  · have ha0 : a = '0' := by
      obtain ⟨h1, _⟩ := isDigitChar_bounds ha
      have hval : a.toNat = 48 := by
        unfold digitVal at h0
        omega
      have := Char.ofNat_toNat a
      rw [hval] at this
      exact this.symm ▸ rfl
    rw [pad2, if_pos (by omega), h0]
    rw [show 10 * 0 + digitVal b = digitVal b by omega]
    rw [natToDigits_small hb10, digitChar_digitVal hb, ha0]
  · rw [pad2, if_neg (by omega)]
    rw [natToDigits_step hb10 (by omega)]
    rw [natToDigits_small ha10, digitChar_digitVal ha, digitChar_digitVal hb]
    rfl

theorem natToDigits_year {y1 y2 y3 y4 : Char}
    (h1 : isDigitChar y1 = true) (h2 : isDigitChar y2 = true)
    (h3 : isDigitChar y3 = true) (h4 : isDigitChar y4 = true) (hnz : y1 ≠ '0') :
    natToDigits (1000 * digitVal y1 + 100 * digitVal y2 + 10 * digitVal y3 + digitVal y4) =
      [y1, y2, y3, y4] := by
  have b1 := digitVal_lt_ten h1
  have b2 := digitVal_lt_ten h2
  have b3 := digitVal_lt_ten h3
  have b4 := digitVal_lt_ten h4
  have p1 := digitVal_pos h1 hnz
  rw [show 1000 * digitVal y1 + 100 * digitVal y2 + 10 * digitVal y3 + digitVal y4 =
      10 * (10 * (10 * digitVal y1 + digitVal y2) + digitVal y3) + digitVal y4 by omega]
  rw [natToDigits_step b4 (by omega)]
  rw [natToDigits_step b3 (by omega)]
  rw [natToDigits_step b2 (by omega)]
  rw [natToDigits_small b1]
  rw [digitChar_digitVal h1, digitChar_digitVal h2, digitChar_digitVal h3,
    digitChar_digitVal h4]
  rfl

/-- C9 fails on the code for years below 1000: `getFullYear` renders year 90
as "90" with no leading zeros, so the valid date string "0090-01-02" does not
come back as `DD/MM/YYYY`. -/
theorem format_date_french_counterexample :
    formatDateToFrench "0090-01-02" = "02/01/90" ∧
      formatDateToFrench "0090-01-02" ≠ "02/01/0090" := by
  constructor <;> decide

/-- C9 (amended): `formatDateToFrench` returns the empty string for empty or
unparseable input, and for every valid `YYYY-MM-DD` string whose year does
not start with the digit 0 it returns exactly the day, month and year
characters rearranged as `DD/MM/YYYY` (years starting with 0 are rendered
without their leading zeros). -/
theorem format_date_french :
    formatDateToFrench "" = "" ∧
    (∀ s : String, parseDateL s.data = none → formatDateToFrench s = "") ∧
    (∀ (s : String) (y1 y2 y3 y4 m1 m2 d1 d2 : Char),
      s.data = [y1, y2, y3, y4, '-', m1, m2, '-', d1, d2] →
      (isDigitChar y1 && isDigitChar y2 && isDigitChar y3 && isDigitChar y4 &&
        isDigitChar m1 && isDigitChar m2 && isDigitChar d1 && isDigitChar d2) = true →
      RealDate (1000 * digitVal y1 + 100 * digitVal y2 + 10 * digitVal y3 + digitVal y4)
        (10 * digitVal m1 + digitVal m2) (10 * digitVal d1 + digitVal d2) →
      y1 ≠ '0' →
      formatDateToFrench s = ⟨[d1, d2, '/', m1, m2, '/', y1, y2, y3, y4]⟩) := by
  refine ⟨by decide, ?_, ?_⟩
  · intro s hp
    unfold formatDateToFrench formatDateToFrenchL
    by_cases hnil : s.data = []
    · rw [if_pos hnil]
    · rw [if_neg hnil, hp]
  · intro s y1 y2 y3 y4 m1 m2 d1 d2 hdata hdig hreal hnz
    obtain ⟨g1, g2, g3, g4, g5, g6, g7, g8⟩ := digits_split hdig
    unfold formatDateToFrench formatDateToFrenchL
    rw [hdata]
    rw [if_neg (by simp)]
    rw [parseDateL_shape y1 y2 y3 y4 m1 m2 d1 d2 hdig]
    rw [if_pos hreal]
    have hm : pad2 (10 * digitVal m1 + digitVal m2) = [m1, m2] := pad2_digits g5 g6
    have hd : pad2 (10 * digitVal d1 + digitVal d2) = [d1, d2] := pad2_digits g7 g8
    have hy := natToDigits_year g1 g2 g3 g4 hnz
    simp [hm, hd, hy]

/-- Witness for C9 (amended): "1990-09-14" is formatted as "14/09/1990". -/
theorem format_date_french_witness :
    formatDateToFrench "1990-09-14" = "14/09/1990" := by
  have h := format_date_french.2.2 "1990-09-14" '1' '9' '9' '0' '0' '9' '1' '4'
    (by decide) (by decide) (by decide) (by decide)
  rw [h]

theorem dropWhile_head_not_ws {p : Char → Bool} {l : List Char} {c : Char}
    (h : (l.dropWhile p).head? = some c) : p c = false := by
  have hm := List.head?_dropWhile_not p l
  rw [h] at hm
  exact hm

theorem getLast?_dropWhile_of_ne_nil {p : Char → Bool} {l : List Char}
    (h : l.dropWhile p ≠ []) : (l.dropWhile p).getLast? = l.getLast? := by
  obtain ⟨t, ht⟩ := List.dropWhile_suffix (l := l) p
  conv_rhs => rw [← ht]
  rw [List.getLast?_append]
  obtain ⟨a, ha⟩ := Option.isSome_iff_exists.mp (List.getLast?_isSome.mpr h)
  rw [ha]
  rfl

theorem trimList_head_not_ws {l : List Char} {c : Char}
    (h : (trimList l).head? = some c) : isWs c = false := by
  unfold trimList at h
  rw [List.head?_reverse] at h
  have hne : (l.dropWhile isWs).reverse.dropWhile isWs ≠ [] := by
    intro hnil
    rw [hnil] at h
    simp at h
  rw [getLast?_dropWhile_of_ne_nil hne, List.getLast?_reverse] at h
  exact dropWhile_head_not_ws h

theorem trimList_last_not_ws {l : List Char} {c : Char}
    (h : (trimList l).getLast? = some c) : isWs c = false := by
  unfold trimList at h
  rw [List.getLast?_reverse] at h
  exact dropWhile_head_not_ws h

theorem getLast?_cons_of_ne_nil {a : Char} {l : List Char} (h : l ≠ []) :
    (a :: l).getLast? = l.getLast? := by
  cases l with
  | nil => exact absurd rfl h
  | cons b t => exact List.getLast?_cons_cons

theorem collapseRun_true_dropWhile (l : List Char) :
    collapseRun l true = collapseRun (l.dropWhile isWs) false := by
  induction l with
  | nil => rfl
  | cons c rest ih =>
    by_cases hc : isWs c = true
    · simp [collapseRun, List.dropWhile_cons, hc, ih]
    · simp [collapseRun, List.dropWhile_cons, hc]

theorem wordsOf_dropWhile (l : List Char) : wordsOf (l.dropWhile isWs) = wordsOf l := by
  induction l with
  | nil => rfl
  | cons c rest ih =>
    by_cases hc : isWs c = true
    · rw [List.dropWhile_cons, if_pos hc, ih]
      conv_rhs => rw [wordsOf]
      rw [if_pos hc]
    · rw [List.dropWhile_cons, if_neg (by simp [hc])]

theorem joinWords_cons_word (c : Char) (w : List Char) (ws : List (List Char)) :
    joinWords ((c :: w) :: ws) = c :: joinWords (w :: ws) := by
  cases ws with
  | nil => rfl
  | cons w' ws' => rfl

theorem collapseRun_eq_joinWords :
    ∀ (n : Nat) (l : List Char), l.length ≤ n →
      (∀ c, l.head? = some c → isWs c = false) →
      (∀ c, l.getLast? = some c → isWs c = false) →
      collapseRun l false = joinWords (wordsOf l) := by
  intro n
  induction n with
  | zero =>
    intro l hl _ _
    have hnil : l = [] := by
      cases l with
      | nil => rfl
      | cons a t => simp at hl
    subst hnil
    simp [collapseRun, wordsOf, joinWords]
  | succ n ih =>
    intro l hl hhead hlast
    cases l with
    | nil => simp [collapseRun, wordsOf, joinWords]
    | cons c rest =>
      have hc : isWs c = false := hhead c rfl
      cases rest with
      | nil => simp [collapseRun, wordsOf, joinWords, hc]
      | cons d rest' =>
        by_cases hd : isWs d = true
        · have hrest' : rest' ≠ [] := by
            intro h0
            subst h0
            have hdl : isWs d = false := hlast d (by simp)
            rw [hd] at hdl
            exact absurd hdl (by simp)
          have hlast' : ∀ e, rest'.getLast? = some e → isWs e = false := by
            intro e he
            apply hlast
            rw [List.getLast?_cons_cons, getLast?_cons_of_ne_nil hrest']
            exact he
          have hune : rest'.dropWhile isWs ≠ [] := by
            intro h0
            have hall := List.dropWhile_eq_nil_iff.mp h0
            obtain ⟨e, he⟩ :=
              Option.isSome_iff_exists.mp (List.getLast?_isSome.mpr hrest')
            have hmem := List.mem_of_getLast?_eq_some he
            have hf : isWs e = false := hlast' e he
            have ht := hall e hmem
            rw [ht] at hf
            exact absurd hf (by simp)
          have huhead : ∀ e, (rest'.dropWhile isWs).head? = some e → isWs e = false :=
            fun e he => dropWhile_head_not_ws he
          have hulast : ∀ e, (rest'.dropWhile isWs).getLast? = some e → isWs e = false := by
            intro e he
            rw [getLast?_dropWhile_of_ne_nil hune] at he
            exact hlast' e he
          have hlen : (rest'.dropWhile isWs).length ≤ n := by
            have h1 := (List.dropWhile_sublist (l := rest') isWs).length_le
            simp only [List.length_cons] at hl
            omega
          have hIH := ih (rest'.dropWhile isWs) hlen huhead hulast
          have hL : collapseRun (c :: d :: rest') false =
              c :: ' ' :: collapseRun (rest'.dropWhile isWs) false := by
            simp [collapseRun, hc, hd, collapseRun_true_dropWhile]
          have hwords : wordsOf (c :: d :: rest') = [c] :: wordsOf (rest'.dropWhile isWs) := by
            conv_lhs => rw [wordsOf]
            rw [if_neg (by simp [hc])]
            rw [List.takeWhile_cons, if_neg (by simp [hd]), List.dropWhile_cons,
              if_neg (by simp [hd])]
            conv_lhs => rw [wordsOf]
            rw [if_pos hd, wordsOf_dropWhile]
          have hwne : wordsOf (rest'.dropWhile isWs) ≠ [] := by
            cases hu2 : rest'.dropWhile isWs with
            | nil => exact absurd hu2 hune
            | cons e u' =>
              have he : isWs e = false := huhead e (by rw [hu2]; rfl)
              rw [wordsOf, if_neg (by simp [he])]
              simp
          have hjoin : joinWords ([c] :: wordsOf (rest'.dropWhile isWs)) =
              c :: ' ' :: joinWords (wordsOf (rest'.dropWhile isWs)) := by
            cases hw : wordsOf (rest'.dropWhile isWs) with
            | nil => exact absurd hw hwne
            | cons w ws => rfl
          rw [hL, hwords, hjoin, hIH]
        · have hd' : isWs d = false := by simpa using hd
          have hIH := ih (d :: rest') (by simp only [List.length_cons] at hl ⊢; omega)
            (by
              intro e he
              rw [List.head?_cons] at he
              cases he
              exact hd')
            (by
              intro e he
              apply hlast
              rw [List.getLast?_cons_cons]
              exact he)
          have hL : collapseRun (c :: d :: rest') false =
              c :: collapseRun (d :: rest') false := by
            simp [collapseRun, hc]
          have hwords : wordsOf (c :: d :: rest') =
              (c :: d :: rest'.takeWhile (fun x => !isWs x)) ::
                wordsOf (rest'.dropWhile (fun x => !isWs x)) := by
            conv_lhs => rw [wordsOf]
            rw [if_neg (by simp [hc])]
            rw [List.takeWhile_cons, if_pos (by simp [hd']), List.dropWhile_cons,
              if_pos (by simp [hd'])]
          have hwords' : wordsOf (d :: rest') =
              (d :: rest'.takeWhile (fun x => !isWs x)) ::
                wordsOf (rest'.dropWhile (fun x => !isWs x)) := by
            conv_lhs => rw [wordsOf]
            rw [if_neg (by simp [hd'])]
          rw [hL, hIH, hwords, hwords']
          exact (joinWords_cons_word c _ _).symm

/-- C7: `sanitizeName` returns the input trimmed, with internal whitespace
runs collapsed to single spaces (equivalently: its words joined by single
spaces), with every occurrence of `<` `>` `"` apostrophe `&` removed, and
truncated to at most 50 characters; the empty string maps to the empty
string.  (Non-string inputs are outside a typed embedding.) -/
theorem sanitize_name_characterized (s : String) : sanitizeName s = specSanitizeName s := by
  by_cases hs : s = ""
  · subst hs
    decide
  · have hdne : s.data ≠ [] := by
      intro h
      apply hs
      apply String.ext
      rw [h]
    unfold sanitizeName sanitizeNameL specSanitizeName
    rw [if_neg hdne, if_neg hs]
    have hcol : collapseRun (trimList s.data) false = joinWords (wordsOf (trimList s.data)) :=
      collapseRun_eq_joinWords (trimList s.data).length (trimList s.data) le_rfl
        (fun c hc => trimList_head_not_ws hc) (fun c hc => trimList_last_not_ws hc)
    rw [hcol]

theorem collapseRun_no_dangerous :
    ∀ (l : List Char), (∀ c ∈ l, isDangerous c = false) →
      ∀ (b : Bool), ∀ c ∈ collapseRun l b, isDangerous c = false := by
  intro l
  induction l with
  | nil =>
    intro _ b c hc
    simp [collapseRun] at hc
  | cons a rest ih =>
    intro h b c hc
    have hrest : ∀ x ∈ rest, isDangerous x = false := fun x hx => h x (by simp [hx])
    by_cases ha : isWs a = true
    · cases b with
      | true =>
        simp only [collapseRun, ha, if_true] at hc
        exact ih hrest true c hc
      | false =>
        simp only [collapseRun, ha, if_true] at hc
        rcases List.mem_cons.mp hc with hsp | hmem
        · subst hsp
          decide
        · exact ih hrest true c hmem
    · have ha' : isWs a = false := by simpa using ha
      simp only [collapseRun, ha', Bool.false_eq_true, if_false] at hc
      rcases List.mem_cons.mp hc with hsp | hmem
      · rw [hsp]
        exact h a (by simp)
      · exact ih hrest false c hmem

theorem collapseRun_length_le :
    ∀ (l : List Char) (b : Bool), (collapseRun l b).length ≤ l.length := by
  intro l
  induction l with
  | nil =>
    intro b
    simp [collapseRun]
  | cons a rest ih =>
    intro b
    by_cases ha : isWs a = true
    · cases b with
      | true =>
        have := ih true
        simp only [collapseRun, ha, if_true, List.length_cons]
        omega
      | false =>
        have := ih true
        simp only [collapseRun, ha, if_true, Bool.false_eq_true, if_false, List.length_cons]
        omega
    · have ha' : isWs a = false := by simpa using ha
      have := ih false
      simp only [collapseRun, ha', Bool.false_eq_true, if_false, List.length_cons]
      omega

theorem collapseRun_length_ge :
    ∀ (l : List Char) (b : Bool), l.countP (fun c => !isWs c) ≤ (collapseRun l b).length := by
  intro l
  induction l with
  | nil =>
    intro b
    simp [collapseRun]
  | cons a rest ih =>
    intro b
    rw [List.countP_cons]
    by_cases ha : isWs a = true
    · cases b with
      | true =>
        have := ih true
        simp [collapseRun, ha]
        omega
      | false =>
        have := ih true
        simp [collapseRun, ha]
        omega
    · have ha' : isWs a = false := by simpa using ha
      have := ih false
      simp [collapseRun, ha']
      omega

theorem collapseRun_getLast :
    ∀ (l : List Char) (c : Char), l.getLast? = some c → isWs c = false →
      ∀ b, (collapseRun l b).getLast? = some c := by
  intro l
  induction l with
  | nil =>
    intro c hl _ _
    simp at hl
  | cons a rest ih =>
    intro c hl hc b
    cases rest with
    | nil =>
      simp at hl
      subst hl
      simp [collapseRun, hc]
    | cons d rest' =>
      rw [List.getLast?_cons_cons] at hl
      have hrec := ih c hl hc
      have hne : ∀ b', collapseRun (d :: rest') b' ≠ [] := by
        intro b' h0
        have hx := hrec b'
        rw [h0] at hx
        simp at hx
      by_cases ha : isWs a = true
      · cases b with
        | true =>
          have he : collapseRun (a :: d :: rest') true = collapseRun (d :: rest') true := by
            simp [collapseRun, ha]
          rw [he]
          exact hrec true
        | false =>
          have he : collapseRun (a :: d :: rest') false =
              ' ' :: collapseRun (d :: rest') true := by
            simp [collapseRun, ha]
          rw [he, getLast?_cons_of_ne_nil (hne true)]
          exact hrec true
      · have ha' : isWs a = false := by simpa using ha
        have he : collapseRun (a :: d :: rest') b = a :: collapseRun (d :: rest') false := by
          simp [collapseRun, ha']
        rw [he, getLast?_cons_of_ne_nil (hne false)]
        exact hrec false

theorem trimList_eq_self {l : List Char}
    (hhead : ∀ c, l.head? = some c → isWs c = false)
    (hlast : ∀ c, l.getLast? = some c → isWs c = false) :
    trimList l = l := by
  have h1 : l.dropWhile isWs = l := by
    cases l with
    | nil => rfl
    | cons a t => rw [List.dropWhile_cons, if_neg (by simp [hhead a rfl])]
  have h2 : l.reverse.dropWhile isWs = l.reverse := by
    cases hr : l.reverse with
    | nil => rfl
    | cons a t =>
      have hga : l.getLast? = some a := by
        rw [← List.head?_reverse, hr]
        rfl
      rw [List.dropWhile_cons, if_neg (by simp [hlast a hga])]
  unfold trimList
  rw [h1, h2, List.reverse_reverse]

theorem countP_nonws_ge_two {l : List Char}
    (hlen : 2 ≤ l.length)
    (hhead : ∀ c, l.head? = some c → isWs c = false)
    (hlast : ∀ c, l.getLast? = some c → isWs c = false) :
    2 ≤ l.countP (fun c => !isWs c) := by
  cases l with
  | nil => simp at hlen
  | cons a t =>
    have ha : isWs a = false := hhead a rfl
    have htne : t ≠ [] := by
      intro h0
      subst h0
      simp at hlen
    obtain ⟨b, hb⟩ := Option.isSome_iff_exists.mp (List.getLast?_isSome.mpr htne)
    have hbw : isWs b = false := by
      apply hlast
      rw [getLast?_cons_of_ne_nil htne]
      exact hb
    have h1 : 0 < t.countP (fun c => !isWs c) :=
      List.countP_pos_iff.mpr ⟨b, List.mem_of_getLast?_eq_some hb, by simp [hbw]⟩
    rw [List.countP_cons]
    have hpa : (!isWs a) = true := by simp [ha]
    rw [if_pos hpa]
    omega

theorem isValidNameL_eq_true_iff {l : List Char} :
    isValidNameL l = true ↔
      l ≠ [] ∧ 2 ≤ (trimList l).length ∧ (trimList l).length ≤ 50 ∧
        (trimList l).any isDangerous = false := by
  constructor
  · intro h
    have hs : isValidName ⟨l⟩ = true := h
    obtain ⟨hne, h2, h3, h4⟩ := isValidName_facts hs
    refine ⟨?_, h2, h3, h4⟩
    intro h0
    apply hne
    apply String.ext
    rw [show (⟨l⟩ : String).data = l from rfl, h0]
  · rintro ⟨h1, h2, h3, h4⟩
    unfold isValidNameL
    split
    · next hc => exact absurd hc h1
    · split
      · next hc =>
        simp at hc
        omega
      · split
        · next hc => omega
        · split
          · next hc =>
            rw [h4] at hc
            exact absurd hc (by simp)
          · rfl

/-- C10: for every string accepted by `isValidName`, sanitization removes no
characters beyond whitespace normalization (the dangerous-character filter and
the 50-character truncation are no-ops), the result's length lies in
`[2, 50]`, the result is itself a valid name, and consequently the name stored
by any successful add or update satisfies `isValidName`. -/
theorem sanitize_preserves_valid_names (name : String) (h : isValidName name = true) :
    sanitizeName name = ⟨collapseRun (trimList name.data) false⟩ ∧
    (2 ≤ (sanitizeName name).length ∧ (sanitizeName name).length ≤ 50) ∧
    isValidName (sanitizeName name) = true ∧
    (∀ (c : Clock) (students : List Student) (birth newId ts : String) (r : Student)
        (l' : List Student),
      addStudent c students name birth newId ts = (.added r, l') →
        isValidName r.name = true) ∧
    (∀ (c : Clock) (students : List Student) (id birth ts : String) (r : Student)
        (l' : List Student),
      updateStudent c students id name birth ts = (.updated r, l') →
        isValidName r.name = true) := by
  obtain ⟨hne, hlen2, hlen50, hdang⟩ := isValidName_facts h
  have hdne : name.data ≠ [] := by
    intro h0
    rw [h0] at hlen2
    simp [trimList] at hlen2
  have hth : ∀ c, (trimList name.data).head? = some c → isWs c = false :=
    fun c hc => trimList_head_not_ws hc
  have htl : ∀ c, (trimList name.data).getLast? = some c → isWs c = false :=
    fun c hc => trimList_last_not_ws hc
  have hnd : ∀ c ∈ trimList name.data, isDangerous c = false := by
    intro c hc
    have := List.any_eq_false.mp hdang c hc
    simpa using this
  have hrnd : ∀ c ∈ collapseRun (trimList name.data) false, isDangerous c = false :=
    collapseRun_no_dangerous _ hnd false
  have hfilter : (collapseRun (trimList name.data) false).filter (fun c => !isDangerous c) =
      collapseRun (trimList name.data) false := by
    rw [List.filter_eq_self]
    intro a ha
    simp [hrnd a ha]
  have hlenle : (collapseRun (trimList name.data) false).length ≤ 50 :=
    le_trans (collapseRun_length_le _ false) hlen50
  have hlenge : 2 ≤ (collapseRun (trimList name.data) false).length :=
    le_trans (countP_nonws_ge_two hlen2 hth htl) (collapseRun_length_ge _ false)
  have htake : (collapseRun (trimList name.data) false).take 50 =
      collapseRun (trimList name.data) false := List.take_of_length_le hlenle
  have hmain : sanitizeName name = ⟨collapseRun (trimList name.data) false⟩ := by
    unfold sanitizeName sanitizeNameL
    rw [if_neg hdne, hfilter, htake]
  have hrlen : (sanitizeName name).length =
      (collapseRun (trimList name.data) false).length := by
    rw [hmain]
    rfl
  have hrne : collapseRun (trimList name.data) false ≠ [] := by
    intro h0
    rw [h0] at hlenge
    simp at hlenge
  have hrhead : ∀ c, (collapseRun (trimList name.data) false).head? = some c →
      isWs c = false := by
    intro c hc
    cases ht2 : trimList name.data with
    | nil =>
      rw [ht2] at hc
      simp [collapseRun] at hc
    | cons a t' =>
      have ha : isWs a = false := hth a (by rw [ht2]; rfl)
      rw [ht2] at hc
      simp only [collapseRun, ha, Bool.false_eq_true, if_false] at hc
      rw [List.head?_cons] at hc
      cases hc
      exact ha
  have hrlast : ∀ c, (collapseRun (trimList name.data) false).getLast? = some c →
      isWs c = false := by
    intro c hc
    have htne : trimList name.data ≠ [] := by
      intro h0
      rw [h0] at hlen2
      simp at hlen2
    obtain ⟨e, he⟩ := Option.isSome_iff_exists.mp (List.getLast?_isSome.mpr htne)
    have hew : isWs e = false := htl e he
    have hle := collapseRun_getLast _ e he hew false
    rw [hle] at hc
    cases hc
    exact hew
  have hvalid : isValidName (sanitizeName name) = true := by
    rw [hmain]
    show isValidNameL (collapseRun (trimList name.data) false) = true
    rw [isValidNameL_eq_true_iff]
    rw [trimList_eq_self hrhead hrlast]
    exact ⟨hrne, hlenge, hlenle, List.any_eq_false.mpr (by simpa using hrnd)⟩
  refine ⟨hmain, ⟨by omega, by omega⟩, hvalid, ?_, ?_⟩
  · intro c students birth newId ts r l' heq
    by_cases hv : validateStudentData c name birth = []
    · cases hf : jsFind (fun s => lowerStr s.name == lowerStr (sanitizeName name)) students with
      | some s =>
        simp [addStudent, hv, hf] at heq
      | none =>
        simp only [addStudent, hv, hf, if_pos] at heq
        rw [Prod.mk.injEq] at heq
        obtain ⟨h1, -⟩ := heq
        cases h1
        exact hvalid
    · simp [addStudent, hv] at heq
  · intro c students id birth ts r l' heq
    by_cases hv : validateStudentData c name birth = []
    · by_cases hid : isValidStudentId id = true
      · cases hfind : jsFindIndex (fun s => s.id == id) students with
        | none => simp [updateStudent, hv, hid, hfind] at heq
        | some i =>
          cases hget : students[i]? with
          | none => simp [updateStudent, hv, hid, hfind, hget] at heq
          | some old =>
            cases hdup : jsFind
                (fun s => lowerStr s.name == lowerStr (sanitizeName name) && s.id != id)
                students with
            | some s => simp [updateStudent, hv, hid, hfind, hget, hdup] at heq
            | none =>
              simp only [updateStudent, hv, hid, hfind, hget, hdup, if_pos] at heq
              rw [Prod.mk.injEq] at heq
              obtain ⟨h1, -⟩ := heq
              cases h1
              exact hvalid
      · simp only [Bool.not_eq_true] at hid
        simp [updateStudent, hv, hid] at heq
    · simp [updateStudent, hv] at heq

/-- Witness for C10: "Jean  Paul" is a valid name and its sanitization
"Jean Paul" is still a valid name. -/
theorem sanitize_preserves_valid_names_witness :
    isValidName "Jean  Paul" = true ∧ isValidName (sanitizeName "Jean  Paul") = true :=
  ⟨by decide, (sanitize_preserves_valid_names "Jean  Paul" (by decide)).2.2.1⟩
